import Mathlib

/-!
# Verification of the Movie-Recommendation-System retrieval pipeline

A shallow embedding, in Lean 4, of the hybrid-retrieval core of the
repository `mrkushalsm/Movie-Recommendation-System`:

* `backend/retrieval/hybrid_retriever.py` — Reciprocal Rank Fusion (RRF);
* `backend/retrieval/bm25_retriever.py` — BM25 sparse search;
* `backend/retrieval/reranker.py` — composite re-ranking;
* `backend/retrieval/diversity_filter.py` — MMR diversity selection;
* `backend/config.py` — configuration constants.

Python floats are modelled by exact rationals (`ℚ`); the float-valued
signals that use transcendental functions (`np.exp`, `np.log10`) and the
embedding vectors produced by the external sentence-transformer model are
kept abstract (they enter only as opaque rational-valued parameters).
Python's stable `sorted` is modelled by a stable insertion sort.
-/

namespace MovieRec

/-- The value of `movie.get("id")`: Python returns `None` when the key is
absent (collapsed with an explicit `None` value, which `dict.get` cannot
distinguish), and otherwise the stored id, an integer or a string. -/
inductive MovieId where
  | null : MovieId
  | int : ℤ → MovieId
  | str : String → MovieId
deriving DecidableEq, Repr

/-- Python truthiness of an id value: `None`, `0` and `""` are falsy. -/
def MovieId.truthy : MovieId → Bool
  | .null => false
  | .int n => n ≠ 0
  | .str s => s ≠ ""

/-- A catalog item (a Python movie dict), restricted to the fields the
retrieval pipeline reads.  `title`/`overview` model `movie.get(...)`
returning `None` when absent; `genres` holds the genre names after the
`g.get("name", g) if isinstance(g, dict) else str(g)` normalisation. -/
structure Movie where
  id : MovieId
  title : Option String := Option.none
  overview : Option String := Option.none
  genres : List String := []
  vote_average : ℚ := 0
  popularity : ℚ := 0
deriving DecidableEq, Repr

instance : Inhabited Movie := ⟨{ id := MovieId.null }⟩

/-! ## Stable sorting (model of Python `sorted` and of `numpy.argsort`)

`sortDesc key` models Python's `sorted(xs, key=key, reverse=True)`
(Timsort: stable, here non-increasing by key); `sortAsc key` models a
stable non-decreasing sort, which is the behaviour of `numpy.argsort` on
the concrete inputs considered (for tiny arrays numpy's introsort falls
back to a stable insertion sort). -/

/-- Insert `a` in front of the first element with a strictly larger key
(stable ascending insertion). -/
def insertAsc (key : α → ℚ) (a : α) : List α → List α
  | [] => [a]
  | b :: l => if key a ≤ key b then a :: b :: l else b :: insertAsc key a l

/-- Stable ascending insertion sort by `key`. -/
def sortAsc (key : α → ℚ) : List α → List α
  | [] => []
  | a :: l => insertAsc key a (sortAsc key l)

/-- Insert `a` in front of the first element with a strictly smaller key
(stable descending insertion). -/
def insertDesc (key : α → ℚ) (a : α) : List α → List α
  | [] => [a]
  | b :: l => if key b ≤ key a then a :: b :: l else b :: insertDesc key a l

/-- Stable descending insertion sort by `key`: the model of Python's
`sorted(xs, key=key, reverse=True)`. -/
def sortDesc (key : α → ℚ) : List α → List α
  | [] => []
  | a :: l => insertDesc key a (sortDesc key l)

theorem insertAsc_perm (key : α → ℚ) (a : α) (l : List α) :
    List.Perm (insertAsc key a l) (a :: l) := by
  induction l with
  | nil => simp [insertAsc]
  | cons b t ih =>
    by_cases h : key a ≤ key b
    · simp [insertAsc, h]
    · simp only [insertAsc, if_neg h]
      exact (ih.cons b).trans (List.Perm.swap a b t)

theorem sortAsc_perm (key : α → ℚ) (l : List α) : List.Perm (sortAsc key l) l := by
  induction l with
  | nil => simp [sortAsc]
  | cons a t ih =>
    exact (insertAsc_perm key a (sortAsc key t)).trans (ih.cons a)

theorem insertDesc_perm (key : α → ℚ) (a : α) (l : List α) :
    List.Perm (insertDesc key a l) (a :: l) := by
  induction l with
  | nil => simp [insertDesc]
  | cons b t ih =>
    by_cases h : key b ≤ key a
    · simp [insertDesc, h]
    · simp only [insertDesc, if_neg h]
      exact (ih.cons b).trans (List.Perm.swap a b t)

theorem sortDesc_perm (key : α → ℚ) (l : List α) : List.Perm (sortDesc key l) l := by
  induction l with
  | nil => simp [sortDesc]
  | cons a t ih =>
    exact (insertDesc_perm key a (sortDesc key t)).trans (ih.cons a)

theorem pairwise_insertDesc (key : α → ℚ) (a : α) (l : List α)
    (hl : l.Pairwise (fun x y => key y ≤ key x)) :
    (insertDesc key a l).Pairwise (fun x y => key y ≤ key x) := by
  induction l with
  | nil => simp [insertDesc]
  | cons b t ih =>
    rcases List.pairwise_cons.mp hl with ⟨hb, ht⟩
    by_cases h : key b ≤ key a
    · simp only [insertDesc, if_pos h]
      refine List.pairwise_cons.mpr ⟨?_, hl⟩
      intro c hc
      rcases List.mem_cons.mp hc with rfl | hc
      · exact h
      · exact le_trans (hb c hc) h
    · simp only [insertDesc, if_neg h]
      refine List.pairwise_cons.mpr ⟨?_, ih ht⟩
      intro c hc
      rcases List.mem_cons.mp ((insertDesc_perm key a t).mem_iff.mp hc) with rfl | hc'
      · exact le_of_lt (lt_of_not_le h)
      · exact hb c hc'

/-- The descending sort is non-increasing in the key. -/
theorem pairwise_sortDesc (key : α → ℚ) (l : List α) :
    (sortDesc key l).Pairwise (fun x y => key y ≤ key x) := by
  induction l with
  | nil => simp [sortDesc]
  | cons a t ih => exact pairwise_insertDesc key a (sortDesc key t) ih

/-- Inserting `a` into a list bearing the stability invariant keeps the
invariant, provided `a` is `rel`-before every present element. -/
theorem pairwise_insertAsc (key : α → ℚ) (rel : α → α → Prop) (a : α) (l : List α)
    (hl : l.Pairwise (fun x y => key x ≤ key y ∧ (key y ≤ key x → rel x y)))
    (ha : ∀ b ∈ l, rel a b) :
    (insertAsc key a l).Pairwise
      (fun x y => key x ≤ key y ∧ (key y ≤ key x → rel x y)) := by
  induction l with
  | nil => simp [insertAsc]
  | cons b t ih =>
    rcases List.pairwise_cons.mp hl with ⟨hb, ht⟩
    by_cases h : key a ≤ key b
    · simp only [insertAsc, if_pos h]
      refine List.pairwise_cons.mpr ⟨?_, hl⟩
      intro c hc
      rcases List.mem_cons.mp hc with rfl | hc
      · exact ⟨h, fun _ => ha c (by simp)⟩
      · exact ⟨le_trans h (hb c hc).1, fun _ => ha c (by simp [hc])⟩
    · simp only [insertAsc, if_neg h]
      refine List.pairwise_cons.mpr ⟨?_, ih ht (fun c hc => ha c (by simp [hc]))⟩
      intro c hc
      rcases List.mem_cons.mp ((insertAsc_perm key a t).mem_iff.mp hc) with rfl | hc'
      · exact ⟨le_of_lt (lt_of_not_le h), fun hle => absurd hle h⟩
      · exact hb c hc'

/-- Stability of the ascending sort, packaged as a pairwise invariant:
if the input is `Pairwise rel`, then in the output any earlier element
has a `≤` key, and a tie forces the `rel` (input-order) relation. -/
theorem pairwise_sortAsc (key : α → ℚ) (rel : α → α → Prop) (l : List α)
    (hrel : l.Pairwise rel) :
    (sortAsc key l).Pairwise
      (fun x y => key x ≤ key y ∧ (key y ≤ key x → rel x y)) := by
  induction l with
  | nil => simp [sortAsc]
  | cons a t ih =>
    rcases List.pairwise_cons.mp hrel with ⟨ha, ht⟩
    exact pairwise_insertAsc key rel a (sortAsc key t) (ih ht)
      (fun b hb => ha b ((sortAsc_perm key t).mem_iff.mp hb))

/-- `sortDesc` commutes with `map` when the key factors through the map:
needed to show that RRF ordering depends only on score-free data. -/
theorem sortDesc_map (key : β → ℚ) (f : α → β) (l : List α) :
    sortDesc key (l.map f) = (sortDesc (fun a => key (f a)) l).map f := by
  have hins : ∀ (a : α) (t : List α),
      insertDesc key (f a) (t.map f) = (insertDesc (fun a => key (f a)) a t).map f := by
    intro a t
    induction t with
    | nil => simp [insertDesc]
    | cons b u ih =>
      by_cases h : key (f b) ≤ key (f a)
      · simp [insertDesc, h]
      · simp [insertDesc, h, ih]
  induction l with
  | nil => simp [sortDesc]
  | cons a t ih => simp only [List.map_cons, sortDesc, ih, hins]

/-! ## Reciprocal Rank Fusion — `HybridRetriever.reciprocal_rank_fusion`

The Python function builds an insertion-ordered dict `movie_scores`
keyed by `movie.get("id")`; we model it as an association list to which
new keys are appended at the end, exactly the Python `dict` order. -/

/-- One value of the `movie_scores` dict. -/
structure RRFEntry where
  movie : Movie
  rrf_score : ℚ
  bm25_score : ℚ
  semantic_score : ℚ
deriving DecidableEq, Repr

/-- The `movie_scores` dict: an insertion-ordered association list. -/
abbrev RRFDict := List (MovieId × RRFEntry)

/-- `self.k_rrf = 60`, the RRF constant. -/
def k_rrf : ℚ := 60

/-- `movie_id in movie_scores`. -/
def dmem (d : RRFDict) (i : MovieId) : Bool :=
  d.any (fun p => p.1 = i)

/-- `movie_scores[movie_id]` (first binding of the key). -/
def dlookup : RRFDict → MovieId → Option RRFEntry
  | [], _ => Option.none
  | p :: d, i => if p.1 = i then some p.2 else dlookup d i

/-- Rewrite the value bound to key `i` in place. -/
def dupdate (d : RRFDict) (i : MovieId) (f : RRFEntry → RRFEntry) : RRFDict :=
  d.map (fun p => if p.1 = i then (p.1, f p.2) else p)

/-- The `if movie_id not in movie_scores` part of either loop body of
`reciprocal_rank_fusion`: insert a fresh record (`rrf_score` 0) for an
unseen id; for a seen id the semantic pass overwrites `semantic_score`
(the BM25 pass leaves the record alone). -/
def fuseInsert (isSem : Bool) (d : RRFDict) (m : Movie) (s : ℚ) : RRFDict :=
  if dmem d m.id then
    if isSem then dupdate d m.id (fun e => { e with semantic_score := s }) else d
  else
    d ++ [(m.id, { movie := m, rrf_score := 0,
                   bm25_score := if isSem then 0 else s,
                   semantic_score := if isSem then s else 0 })]

/-- One iteration of either `for rank, (movie, score) in enumerate(...)`
loop body of `reciprocal_rank_fusion` (lines 28–53): skip falsy ids,
otherwise insert/refresh the record and add `1 / (self.k_rrf + rank)`
to its `rrf_score`. -/
def fuseStep (isSem : Bool) (d : RRFDict) (m : Movie) (s : ℚ) (rank : ℕ) : RRFDict :=
  if m.id.truthy then
    dupdate (fuseInsert isSem d m s) m.id
      (fun e => { e with rrf_score := e.rrf_score + 1 / (k_rrf + (rank : ℚ)) })
  else d

/-- One whole `enumerate(results, start=rank)` loop. -/
def fuseList (isSem : Bool) : List (Movie × ℚ) → ℕ → RRFDict → RRFDict
  | [], _, d => d
  | (m, s) :: rest, rank, d => fuseList isSem rest (rank + 1) (fuseStep isSem d m s rank)

/-- `HybridRetriever.reciprocal_rank_fusion` (lines 14–63): process the
BM25 list, then the semantic list, sort the dict values by `rrf_score`
descending (Python `sorted(..., reverse=True)`, stable) and return
`(movie, rrf_score)` pairs. -/
def reciprocal_rank_fusion (bm25_results semantic_results : List (Movie × ℚ)) :
    List (Movie × ℚ) :=
  let d := fuseList true semantic_results 1 (fuseList false bm25_results 1 [])
  (sortDesc RRFEntry.rrf_score (d.map Prod.snd)).map (fun e => (e.movie, e.rrf_score))

/-- The total RRF contribution of id `i` from one ranked list whose first
element has 1-based rank `rank`: `1/(60+r)` summed over every position
`r` that carries id `i`. -/
def rankContrib (i : MovieId) : List (Movie × ℚ) → ℕ → ℚ
  | [], _ => 0
  | (m, _) :: rest, rank =>
      (if m.id = i then 1 / (k_rrf + (rank : ℚ)) else 0) + rankContrib i rest (rank + 1)

/-- The fused score the dict currently assigns to id `i` (0 if unseen). -/
def rrfOf (d : RRFDict) (i : MovieId) : ℚ :=
  match dlookup d i with
  | some e => e.rrf_score
  | Option.none => 0

/-- The 1-based rank of the first element with id `i`, if any. -/
def rankOf (i : MovieId) : List (Movie × ℚ) → ℕ → Option ℕ
  | [], _ => Option.none
  | (m, _) :: rest, rank => if m.id = i then some rank else rankOf i rest (rank + 1)

/-- The claim-level contribution of one list: `1/(60+r)` at the item's
1-based rank `r`, and `0` when the id is absent from the list. -/
def specContrib (i : MovieId) (l : List (Movie × ℚ)) : ℚ :=
  match rankOf i l 1 with
  | some r => 1 / (k_rrf + (r : ℚ))
  | Option.none => 0

/-- The keys of the dict, in insertion order. -/
def dkeys (d : RRFDict) : List MovieId := d.map Prod.fst

/-- Well-formedness maintained by fusion: every key is truthy and every
entry's movie carries its key as id. -/
def DictWF (d : RRFDict) : Prop :=
  ∀ p ∈ d, p.1.truthy = true ∧ p.2.movie.id = p.1

theorem dmem_iff (d : RRFDict) (i : MovieId) : dmem d i = true ↔ i ∈ dkeys d := by
  simp [dmem, dkeys, List.any_eq_true]

theorem dlookup_eq_none (d : RRFDict) (i : MovieId) (h : dmem d i = false) :
    dlookup d i = Option.none := by
  induction d with
  | nil => rfl
  | cons p d ih =>
    simp only [dmem, List.any_cons, Bool.or_eq_false_iff] at h
    simp only [dlookup, if_neg (by simpa using h.1)]
    exact ih (by simpa [dmem] using h.2)

theorem dlookup_isSome (d : RRFDict) (i : MovieId) (h : dmem d i = true) :
    ∃ e, dlookup d i = some e := by
  induction d with
  | nil => simp [dmem] at h
  | cons p d ih =>
    by_cases hp : p.1 = i
    · exact ⟨p.2, by simp [dlookup, hp]⟩
    · simp only [dmem, List.any_cons] at h
      rcases Bool.or_eq_true_iff.mp h with h | h
      · exact absurd (of_decide_eq_true h) hp
      · simpa [dlookup, hp, dmem] using ih (by simpa [dmem] using h)

theorem dlookup_dupdate (d : RRFDict) (j i : MovieId) (f : RRFEntry → RRFEntry) :
    dlookup (dupdate d j f) i =
      if j = i then (dlookup d i).map f else dlookup d i := by
  induction d with
  | nil => by_cases h : j = i <;> simp [dupdate, dlookup, h]
  | cons p d ih =>
    by_cases hpj : p.1 = j <;> by_cases hpi : p.1 = i
    · have hji : j = i := hpj ▸ hpi
      simp [dupdate, dlookup, hpj, hpi, hji] at ih ⊢
    · have hji : ¬ j = i := fun h => hpi (h ▸ hpj)
      simp only [dupdate, List.map_cons, if_pos hpj] at *
      simp [dlookup, hpi, hji] at ih ⊢
      simpa [dupdate, hji] using ih
    · have hji : ¬ j = i := fun h => hpj (h ▸ hpi)
      simp only [dupdate, List.map_cons, if_neg hpj] at *
      simp [dlookup, hpi, hji] at ih ⊢
    · simp only [dupdate, List.map_cons, if_neg hpj] at *
      simp only [dlookup, if_neg hpi]
      simpa [dupdate] using ih

theorem dkeys_dupdate (d : RRFDict) (j : MovieId) (f : RRFEntry → RRFEntry) :
    dkeys (dupdate d j f) = dkeys d := by
  simp only [dkeys, dupdate, List.map_map]
  apply List.map_congr_left
  intro p _
  by_cases h : p.1 = j <;> simp [h]

theorem dmem_dupdate (d : RRFDict) (j i : MovieId) (f : RRFEntry → RRFEntry) :
    dmem (dupdate d j f) i = dmem d i := by
  by_cases h : dmem d i = true
  · have := (dmem_iff d i).mp h
    rw [h]
    exact (dmem_iff _ i).mpr (by rwa [dkeys_dupdate])
  · have h' := Bool.eq_false_iff.mpr (fun hh => h hh) ▸ h
    have hd : dmem d i = false := Bool.not_eq_true _ ▸ Bool.eq_false_iff.mpr h
    rw [hd]
    refine Bool.eq_false_iff.mpr (fun hh => h ?_)
    exact (dmem_iff d i).mpr (dkeys_dupdate d j f ▸ (dmem_iff _ i).mp hh)

theorem dlookup_append_single (d : RRFDict) (j : MovieId) (e : RRFEntry) (i : MovieId) :
    dlookup (d ++ [(j, e)]) i =
      match dlookup d i with
      | some x => some x
      | Option.none => if j = i then some e else Option.none := by
  induction d with
  | nil => simp [dlookup]
  | cons p d ih =>
    by_cases hpi : p.1 = i
    · simp [dlookup, hpi]
    · simpa [dlookup, hpi] using ih

/-- `rrfOf` ignores an update at a different key. -/
theorem rrfOf_dupdate_ne (d : RRFDict) (j i : MovieId) (f : RRFEntry → RRFEntry)
    (h : ¬ j = i) : rrfOf (dupdate d j f) i = rrfOf d i := by
  simp [rrfOf, dlookup_dupdate, h]

/-- `rrfOf` ignores an update that leaves the `rrf_score` field intact. -/
theorem rrfOf_dupdate_keep (d : RRFDict) (j i : MovieId) (f : RRFEntry → RRFEntry)
    (hf : ∀ e, (f e).rrf_score = e.rrf_score) :
    rrfOf (dupdate d j f) i = rrfOf d i := by
  by_cases h : j = i
  · subst h
    simp only [rrfOf, dlookup_dupdate, if_pos rfl]
    cases dlookup d j with
    | none => rfl
    | some e => simp [hf]
  · exact rrfOf_dupdate_ne d j i f h

/-- Adding `c` to the `rrf_score` at a present key adds `c` to `rrfOf`. -/
theorem rrfOf_dupdate_add (d : RRFDict) (j : MovieId) (c : ℚ) (h : dmem d j = true) :
    rrfOf (dupdate d j (fun e => { e with rrf_score := e.rrf_score + c })) j
      = rrfOf d j + c := by
  rcases dlookup_isSome d j h with ⟨e, he⟩
  simp [rrfOf, dlookup_dupdate, he]

theorem rrfOf_append_ne (d : RRFDict) (j : MovieId) (e : RRFEntry) (i : MovieId)
    (h : ¬ j = i) : rrfOf (d ++ [(j, e)]) i = rrfOf d i := by
  simp only [rrfOf, dlookup_append_single]
  cases dlookup d i with
  | none => simp [h]
  | some x => rfl

theorem rrfOf_append_self (d : RRFDict) (j : MovieId) (e : RRFEntry)
    (h : dmem d j = false) : rrfOf (d ++ [(j, e)]) j = e.rrf_score := by
  simp [rrfOf, dlookup_append_single, dlookup_eq_none d j h]

/-- Inserting/refreshing a record never changes any fused score. -/
theorem rrfOf_fuseInsert (isSem : Bool) (d : RRFDict) (m : Movie) (s : ℚ) (j : MovieId) :
    rrfOf (fuseInsert isSem d m s) j = rrfOf d j := by
  by_cases hmem : dmem d m.id = true
  · cases isSem <;> simp [fuseInsert, hmem, rrfOf_dupdate_keep]
  · have hmem' : dmem d m.id = false := Bool.eq_false_iff.mpr hmem
    by_cases hj : m.id = j
    · subst hj
      simp only [fuseInsert, hmem', Bool.false_eq_true, if_false]
      rw [rrfOf_append_self _ _ _ hmem']
      simp [rrfOf, dlookup_eq_none d m.id hmem']
    · simp only [fuseInsert, hmem', Bool.false_eq_true, if_false]
      exact rrfOf_append_ne d m.id _ j hj

theorem dmem_fuseInsert_self (isSem : Bool) (d : RRFDict) (m : Movie) (s : ℚ) :
    dmem (fuseInsert isSem d m s) m.id = true := by
  by_cases hmem : dmem d m.id = true
  · cases isSem <;> simp [fuseInsert, hmem, dmem_dupdate]
  · have hmem' : dmem d m.id = false := Bool.eq_false_iff.mpr hmem
    simp only [fuseInsert, hmem', Bool.false_eq_true, if_false]
    simp [dmem, List.any_append]

theorem dkeys_fuseInsert (isSem : Bool) (d : RRFDict) (m : Movie) (s : ℚ) :
    dkeys (fuseInsert isSem d m s) =
      if dmem d m.id then dkeys d else dkeys d ++ [m.id] := by
  by_cases hmem : dmem d m.id = true
  · cases isSem <;> simp [fuseInsert, hmem, dkeys_dupdate]
  · have hmem' : dmem d m.id = false := Bool.eq_false_iff.mpr hmem
    simp [fuseInsert, hmem', dkeys]

/-- `rrfOf` across one loop iteration: a truthy id gains `1/(60+rank)`
exactly when the processed movie carries that id. -/
theorem fuseStep_rrfOf (isSem : Bool) (d : RRFDict) (m : Movie) (s : ℚ) (rank : ℕ)
    (i : MovieId) (hi : i.truthy = true) :
    rrfOf (fuseStep isSem d m s rank) i =
      rrfOf d i + (if m.id = i then 1 / (k_rrf + (rank : ℚ)) else 0) := by
  by_cases hm : m.id.truthy = true
  · simp only [fuseStep, hm, if_true]
    by_cases hj : m.id = i
    · subst hj
      rw [rrfOf_dupdate_add _ _ _ (dmem_fuseInsert_self isSem d m s),
        rrfOf_fuseInsert, if_pos rfl]
    · rw [rrfOf_dupdate_ne _ _ _ _ hj, rrfOf_fuseInsert, if_neg hj]
      ring
  · have hfalse : m.id.truthy = false := Bool.eq_false_iff.mpr hm
    have hj : ¬ m.id = i := fun h => hm (h ▸ hi)
    simp [fuseStep, hfalse, hj]

/-- `rrfOf` across one whole loop: a truthy id gains its `rankContrib`. -/
theorem fuseList_rrfOf (isSem : Bool) (l : List (Movie × ℚ)) (rank : ℕ) (d : RRFDict)
    (i : MovieId) (hi : i.truthy = true) :
    rrfOf (fuseList isSem l rank d) i = rrfOf d i + rankContrib i l rank := by
  induction l generalizing rank d with
  | nil => simp [fuseList, rankContrib]
  | cons p rest ih =>
    obtain ⟨m, s⟩ := p
    simp only [fuseList, rankContrib]
    rw [ih, fuseStep_rrfOf isSem d m s rank i hi]
    ring

theorem mem_dkeys_fuseStep (isSem : Bool) (d : RRFDict) (m : Movie) (s : ℚ) (rank : ℕ)
    (i : MovieId) :
    i ∈ dkeys (fuseStep isSem d m s rank) ↔
      i ∈ dkeys d ∨ (m.id.truthy = true ∧ m.id = i) := by
  by_cases hm : m.id.truthy = true
  · simp only [fuseStep, hm, if_true, dkeys_dupdate, dkeys_fuseInsert]
    by_cases hmem : dmem d m.id = true
    · simp only [hmem, if_true]
      constructor
      · exact Or.inl
      · rintro (h | ⟨-, rfl⟩)
        · exact h
        · exact (dmem_iff d m.id).mp hmem
    · have hmem' : dmem d m.id = false := Bool.eq_false_iff.mpr hmem
      simp [hmem', hm, List.mem_append, eq_comm]
  · have hfalse : m.id.truthy = false := Bool.eq_false_iff.mpr hm
    simp [fuseStep, hfalse, hm]

theorem mem_dkeys_fuseList (isSem : Bool) (l : List (Movie × ℚ)) (rank : ℕ)
    (d : RRFDict) (i : MovieId) :
    i ∈ dkeys (fuseList isSem l rank d) ↔
      i ∈ dkeys d ∨ (i.truthy = true ∧ ∃ p ∈ l, (p : Movie × ℚ).1.id = i) := by
  induction l generalizing rank d with
  | nil => simp [fuseList]
  | cons p rest ih =>
    obtain ⟨m, s⟩ := p
    simp only [fuseList]
    rw [ih, mem_dkeys_fuseStep]
    constructor
    · rintro (⟨h | ⟨hm, rfl⟩⟩ | ⟨ht, q, hq, rfl⟩)
      · exact Or.inl h
      · exact Or.inr ⟨hm, (m, s), by simp⟩
      · exact Or.inr ⟨ht, q, by simp [hq]⟩
    · rintro (h | ⟨ht, q, hq, rfl⟩)
      · exact Or.inl (Or.inl h)
      · rcases List.mem_cons.mp hq with rfl | hq
        · exact Or.inl (Or.inr ⟨ht, rfl⟩)
        · exact Or.inr ⟨ht, q, hq, rfl⟩

theorem nodup_dkeys_fuseStep (isSem : Bool) (d : RRFDict) (m : Movie) (s : ℚ)
    (rank : ℕ) (h : (dkeys d).Nodup) : (dkeys (fuseStep isSem d m s rank)).Nodup := by
  by_cases hm : m.id.truthy = true
  · simp only [fuseStep, hm, if_true, dkeys_dupdate, dkeys_fuseInsert]
    by_cases hmem : dmem d m.id = true
    · simpa [hmem] using h
    · have hmem' : dmem d m.id = false := Bool.eq_false_iff.mpr hmem
      have hnotin : m.id ∉ dkeys d := fun hc => hmem ((dmem_iff d m.id).mpr hc)
      simp only [hmem', Bool.false_eq_true, if_false]
      simpa [List.nodup_append] using ⟨h, hnotin⟩
  · have hfalse : m.id.truthy = false := Bool.eq_false_iff.mpr hm
    simpa [fuseStep, hfalse] using h

theorem nodup_dkeys_fuseList (isSem : Bool) (l : List (Movie × ℚ)) (rank : ℕ)
    (d : RRFDict) (h : (dkeys d).Nodup) : (dkeys (fuseList isSem l rank d)).Nodup := by
  induction l generalizing rank d with
  | nil => simpa [fuseList] using h
  | cons p rest ih =>
    obtain ⟨m, s⟩ := p
    exact ih _ _ (nodup_dkeys_fuseStep isSem d m s rank h)

theorem dictWF_dupdate (d : RRFDict) (j : MovieId) (f : RRFEntry → RRFEntry)
    (hf : ∀ e, (f e).movie = e.movie) (h : DictWF d) : DictWF (dupdate d j f) := by
  intro p hp
  rcases List.mem_map.mp hp with ⟨q, hq, rfl⟩
  rcases h q hq with ⟨hq1, hq2⟩
  by_cases hqj : q.1 = j
  · simp only [if_pos hqj]
    exact ⟨hq1, by rw [hf]; exact hq2⟩
  · simp only [if_neg hqj]
    exact ⟨hq1, hq2⟩

theorem dictWF_fuseStep (isSem : Bool) (d : RRFDict) (m : Movie) (s : ℚ) (rank : ℕ)
    (h : DictWF d) : DictWF (fuseStep isSem d m s rank) := by
  by_cases hm : m.id.truthy = true
  · simp only [fuseStep, hm, if_true]
    refine dictWF_dupdate _ _ _ (fun e => rfl) ?_
    by_cases hmem : dmem d m.id = true
    · cases isSem <;> simp only [fuseInsert, hmem, if_true, if_false]
      · exact h
      · exact dictWF_dupdate _ _ _ (fun e => rfl) h
    · have hmem' : dmem d m.id = false := Bool.eq_false_iff.mpr hmem
      simp only [fuseInsert, hmem', Bool.false_eq_true, if_false]
      intro p hp
      rcases List.mem_append.mp hp with hp | hp
      · exact h p hp
      · rcases List.mem_singleton.mp hp with rfl
        exact ⟨hm, rfl⟩
  · have hfalse : m.id.truthy = false := Bool.eq_false_iff.mpr hm
    simpa [fuseStep, hfalse] using h

theorem dictWF_fuseList (isSem : Bool) (l : List (Movie × ℚ)) (rank : ℕ)
    (d : RRFDict) (h : DictWF d) : DictWF (fuseList isSem l rank d) := by
  induction l generalizing rank d with
  | nil => simpa [fuseList] using h
  | cons p rest ih =>
    obtain ⟨m, s⟩ := p
    exact ih _ _ (dictWF_fuseStep isSem d m s rank h)

/-- On a dict with `Nodup` keys, a binding determines the lookup. -/
theorem dlookup_of_mem_nodup (d : RRFDict) (j : MovieId) (e : RRFEntry)
    (hnd : (dkeys d).Nodup) (hmem : (j, e) ∈ d) : dlookup d j = some e := by
  induction d with
  | nil => cases hmem
  | cons p d ih =>
    rcases List.mem_cons.mp hmem with rfl | hmem'
    · simp [dlookup]
    · have hj : j ∈ dkeys d := List.mem_map.mpr ⟨(j, e), hmem', rfl⟩
      have hp : ¬ p.1 = j := by
        intro hc
        exact (List.nodup_cons.mp (by simpa [dkeys] using hnd)).1 (hc ▸ hj)
      simp only [dlookup, if_neg hp]
      exact ih (List.nodup_cons.mp (by simpa [dkeys] using hnd)).2 hmem'

/-! ### Raw scores never influence the fused output

The per-source raw scores only land in the `bm25_score`/`semantic_score`
diagnostic fields, which `reciprocal_rank_fusion` drops on return.  We
erase them with a projection and show the whole computation factors
through it. -/

/-- Score-erased view of a dict binding: key, movie and fused score. -/
def pentry (p : MovieId × RRFEntry) : MovieId × Movie × ℚ :=
  (p.1, (p.2.movie, p.2.rrf_score))

/-- Score-erased view of the whole dict. -/
def pdict (d : RRFDict) : List (MovieId × Movie × ℚ) := d.map pentry

theorem dkeys_eq_pdict (d : RRFDict) : dkeys d = (pdict d).map Prod.fst := by
  simp [dkeys, pdict, pentry, List.map_map]

theorem pdict_dupdate_sem (d : RRFDict) (j : MovieId) (s : ℚ) :
    pdict (dupdate d j (fun e => { e with semantic_score := s })) = pdict d := by
  simp only [pdict, dupdate, List.map_map]
  apply List.map_congr_left
  intro p _
  by_cases h : p.1 = j <;> simp [pentry, h]

theorem pdict_dupdate_add (d : RRFDict) (j : MovieId) (c : ℚ) :
    pdict (dupdate d j (fun e => { e with rrf_score := e.rrf_score + c })) =
      (pdict d).map
        (fun q => if q.1 = j then (q.1, (q.2.1, q.2.2 + c)) else q) := by
  simp only [pdict, dupdate, List.map_map]
  apply List.map_congr_left
  intro p _
  by_cases h : p.1 = j <;> simp [pentry, h]

/-- One loop iteration respects the score-erased view: equal views and
equal movies give equal views, whatever the raw scores are. -/
theorem pdict_fuseStep (isSem : Bool) (d d' : RRFDict) (m : Movie) (s s' : ℚ)
    (rank : ℕ) (h : pdict d = pdict d') :
    pdict (fuseStep isSem d m s rank) = pdict (fuseStep isSem d' m s' rank) := by
  have hkeys : dkeys d = dkeys d' := by rw [dkeys_eq_pdict, dkeys_eq_pdict, h]
  have hmem : dmem d m.id = dmem d' m.id := by
    by_cases hd : dmem d m.id = true
    · rw [hd]; exact ((dmem_iff d' m.id).mpr (hkeys ▸ (dmem_iff d m.id).mp hd)).symm
    · have h1 : dmem d m.id = false := Bool.eq_false_iff.mpr hd
      have h2 : dmem d' m.id = false := by
        refine Bool.eq_false_iff.mpr (fun hc => hd ?_)
        exact (dmem_iff d m.id).mpr (hkeys ▸ (dmem_iff d' m.id).mp hc)
      rw [h1, h2]
  have hins : pdict (fuseInsert isSem d m s) = pdict (fuseInsert isSem d' m s') := by
    by_cases hd : dmem d m.id = true
    · have hd' : dmem d' m.id = true := hmem ▸ hd
      cases isSem <;> simp [fuseInsert, hd, hd', pdict_dupdate_sem, h]
    · have h1 : dmem d m.id = false := Bool.eq_false_iff.mpr hd
      have h2 : dmem d' m.id = false := hmem ▸ h1
      simp only [fuseInsert, h1, h2, Bool.false_eq_true, if_false]
      simp [pdict, pentry, h]
      simpa [pdict] using h
  by_cases hm : m.id.truthy = true
  · simp only [fuseStep, hm, if_true, pdict_dupdate_add, hins]
  · have hfalse : m.id.truthy = false := Bool.eq_false_iff.mpr hm
    simpa [fuseStep, hfalse] using h

/-- A whole loop respects the score-erased view: only the movie column
of the input list matters. -/
theorem pdict_fuseList (isSem : Bool) (l l' : List (Movie × ℚ)) (rank : ℕ)
    (d d' : RRFDict) (hl : l.map Prod.fst = l'.map Prod.fst)
    (h : pdict d = pdict d') :
    pdict (fuseList isSem l rank d) = pdict (fuseList isSem l' rank d') := by
  induction l generalizing l' rank d d' with
  | nil =>
    cases l' with
    | nil => simpa [fuseList] using h
    | cons q t => simp at hl
  | cons p rest ih =>
    cases l' with
    | nil => simp at hl
    | cons q rest' =>
      obtain ⟨m, s⟩ := p
      obtain ⟨m', s'⟩ := q
      simp only [List.map_cons, List.cons.injEq] at hl
      obtain ⟨rfl, hrest⟩ := hl
      simp only [fuseList]
      exact ih rest' _ _ _ hrest (pdict_fuseStep isSem d d' m s s' rank h)

/-- `reciprocal_rank_fusion` factors through the score-erased dict. -/
theorem rrf_eq_proj (bm sem : List (Movie × ℚ)) :
    reciprocal_rank_fusion bm sem =
      sortDesc Prod.snd
        ((pdict (fuseList true sem 1 (fuseList false bm 1 []))).map Prod.snd) := by
  unfold reciprocal_rank_fusion
  have h1 : (pdict (fuseList true sem 1 (fuseList false bm 1 []))).map Prod.snd
      = ((fuseList true sem 1 (fuseList false bm 1 [])).map Prod.snd).map
          (fun e => (e.movie, e.rrf_score)) := by
    simp [pdict, pentry, List.map_map]
  rw [h1, sortDesc_map]

/-- Full congruence: the fused output is determined by the two movie
columns; raw scores influence nothing that is returned. -/
theorem rrf_congr (bm bm' sem sem' : List (Movie × ℚ))
    (h1 : bm.map Prod.fst = bm'.map Prod.fst)
    (h2 : sem.map Prod.fst = sem'.map Prod.fst) :
    reciprocal_rank_fusion bm sem = reciprocal_rank_fusion bm' sem' := by
  rw [rrf_eq_proj, rrf_eq_proj,
    pdict_fuseList true sem sem' 1 _ _ h2 (pdict_fuseList false bm bm' 1 [] [] h1 rfl)]

/-! ### Characterisation of the fused output -/

/-- The dict both loops build from the two input lists. -/
def fusedDict (bm25_results semantic_results : List (Movie × ℚ)) : RRFDict :=
  fuseList true semantic_results 1 (fuseList false bm25_results 1 [])

theorem rrf_eq_of_fusedDict (bm sem : List (Movie × ℚ)) :
    reciprocal_rank_fusion bm sem =
      (sortDesc RRFEntry.rrf_score ((fusedDict bm sem).map Prod.snd)).map
        (fun e => (e.movie, e.rrf_score)) := rfl

theorem nodup_dkeys_fusedDict (bm sem : List (Movie × ℚ)) :
    (dkeys (fusedDict bm sem)).Nodup :=
  nodup_dkeys_fuseList true sem 1 _
    (nodup_dkeys_fuseList false bm 1 [] (by simp [dkeys]))

theorem dictWF_fusedDict (bm sem : List (Movie × ℚ)) : DictWF (fusedDict bm sem) :=
  dictWF_fuseList true sem 1 _
    (dictWF_fuseList false bm 1 [] (by intro p hp; cases hp))

theorem mem_dkeys_fusedDict (bm sem : List (Movie × ℚ)) (i : MovieId) :
    i ∈ dkeys (fusedDict bm sem) ↔
      i.truthy = true ∧
        ((∃ p ∈ bm, (p : Movie × ℚ).1.id = i) ∨
          (∃ p ∈ sem, (p : Movie × ℚ).1.id = i)) := by
  unfold fusedDict
  rw [mem_dkeys_fuseList, mem_dkeys_fuseList]
  simp only [dkeys, List.map_nil, List.not_mem_nil, false_or]
  constructor
  · rintro (⟨ht, hex⟩ | ⟨ht, hex⟩)
    · exact ⟨ht, Or.inl hex⟩
    · exact ⟨ht, Or.inr hex⟩
  · rintro ⟨ht, hex | hex⟩
    · exact Or.inl ⟨ht, hex⟩
    · exact Or.inr ⟨ht, hex⟩

theorem rrfOf_fusedDict (bm sem : List (Movie × ℚ)) (i : MovieId)
    (hi : i.truthy = true) :
    rrfOf (fusedDict bm sem) i = rankContrib i bm 1 + rankContrib i sem 1 := by
  unfold fusedDict
  rw [fuseList_rrfOf true sem 1 _ i hi, fuseList_rrfOf false bm 1 [] i hi]
  simp [rrfOf, dlookup]

/-- Membership in the fused output, reduced to the dict bindings. -/
theorem mem_rrf_iff (bm sem : List (Movie × ℚ)) (p : Movie × ℚ) :
    p ∈ reciprocal_rank_fusion bm sem ↔
      ∃ q ∈ fusedDict bm sem,
        p = ((q : MovieId × RRFEntry).2.movie, q.2.rrf_score) := by
  rw [rrf_eq_of_fusedDict]
  simp only [List.mem_map]
  constructor
  · rintro ⟨e, he, rfl⟩
    have he' := (sortDesc_perm RRFEntry.rrf_score _).mem_iff.mp he
    rcases List.mem_map.mp he' with ⟨q, hq, rfl⟩
    exact ⟨q, hq, rfl⟩
  · rintro ⟨q, hq, rfl⟩
    refine ⟨q.2, ?_, rfl⟩
    exact (sortDesc_perm RRFEntry.rrf_score _).mem_iff.mpr
      (List.mem_map.mpr ⟨q, hq, rfl⟩)

/-- If one list has no element of id `i`, that id picks up nothing. -/
theorem rankContrib_eq_zero (i : MovieId) (l : List (Movie × ℚ)) (rank : ℕ)
    (h : ∀ p ∈ l, (p : Movie × ℚ).1.id ≠ i) : rankContrib i l rank = 0 := by
  induction l generalizing rank with
  | nil => rfl
  | cons p rest ih =>
    obtain ⟨m, s⟩ := p
    have hm : m.id ≠ i := h (m, s) (by simp)
    simp only [rankContrib, if_neg hm]
    rw [ih _ (fun q hq => h q (by simp [hq]))]
    ring

/-- With distinct ids in the list, the accumulated contribution is the
single term `1/(60+r)` at the id's rank (or 0 when absent). -/
theorem rankContrib_of_nodup (i : MovieId) (l : List (Movie × ℚ)) (rank : ℕ)
    (h : (l.map (fun p => (p : Movie × ℚ).1.id)).Nodup) :
    rankContrib i l rank =
      match rankOf i l rank with
      | some r => 1 / (k_rrf + (r : ℚ))
      | Option.none => 0 := by
  induction l generalizing rank with
  | nil => rfl
  | cons p rest ih =>
    obtain ⟨m, s⟩ := p
    simp only [List.map_cons, List.nodup_cons] at h
    by_cases hm : m.id = i
    · subst hm
      have hzero : rankContrib m.id rest (rank + 1) = 0 := by
        refine rankContrib_eq_zero _ _ _ (fun q hq hc => h.1 ?_)
        exact List.mem_map.mpr ⟨q, hq, hc⟩
      simp [rankContrib, rankOf, hzero]
    · simp only [rankContrib, if_neg hm, rankOf, hm, if_false]
      rw [ih _ h.2]
      split <;> ring

theorem specContrib_eq (i : MovieId) (l : List (Movie × ℚ))
    (h : (l.map (fun p => (p : Movie × ℚ).1.id)).Nodup) :
    rankContrib i l 1 = specContrib i l := by
  rw [rankContrib_of_nodup i l 1 h, specContrib]

/-- The id column of the fused output is exactly the dict key column (up
to the final reordering sort). -/
theorem rrf_ids_perm (bm sem : List (Movie × ℚ)) :
    List.Perm ((reciprocal_rank_fusion bm sem).map (fun p => (p : Movie × ℚ).1.id))
      (dkeys (fusedDict bm sem)) := by
  rw [rrf_eq_of_fusedDict, List.map_map]
  have h1 := (sortDesc_perm RRFEntry.rrf_score
    ((fusedDict bm sem).map Prod.snd)).map (fun e => e.movie.id)
  have h2 : ((fusedDict bm sem).map Prod.snd).map (fun e => e.movie.id)
      = dkeys (fusedDict bm sem) := by
    rw [List.map_map]
    apply List.map_congr_left
    intro q hq
    exact (dictWF_fusedDict bm sem q hq).2
  exact h2 ▸ h1

theorem nodup_rrf_ids (bm sem : List (Movie × ℚ)) :
    ((reciprocal_rank_fusion bm sem).map (fun p => (p : Movie × ℚ).1.id)).Nodup :=
  ((rrf_ids_perm bm sem).nodup_iff).mpr (nodup_dkeys_fusedDict bm sem)

theorem mem_rrf_ids_iff (bm sem : List (Movie × ℚ)) (i : MovieId) :
    (∃ p ∈ reciprocal_rank_fusion bm sem, (p : Movie × ℚ).1.id = i) ↔
      i ∈ dkeys (fusedDict bm sem) := by
  rw [← (rrf_ids_perm bm sem).mem_iff]
  simp only [List.mem_map]

/-- Every record of the fused output carries a truthy id. -/
theorem rrf_truthy (bm sem : List (Movie × ℚ)) (p : Movie × ℚ)
    (hp : p ∈ reciprocal_rank_fusion bm sem) : p.1.id.truthy = true := by
  rcases (mem_rrf_iff bm sem p).mp hp with ⟨q, hq, rfl⟩
  obtain ⟨ht, hid⟩ := dictWF_fusedDict bm sem q hq
  simpa [hid] using ht

/-- Every record's fused score is the accumulated `1/(60+r)` total of its
own id over the two input lists. -/
theorem rrf_score_eq (bm sem : List (Movie × ℚ)) (p : Movie × ℚ)
    (hp : p ∈ reciprocal_rank_fusion bm sem) :
    p.2 = rankContrib p.1.id bm 1 + rankContrib p.1.id sem 1 := by
  rcases (mem_rrf_iff bm sem p).mp hp with ⟨q, hq, rfl⟩
  obtain ⟨ht, hid⟩ := dictWF_fusedDict bm sem q hq
  have hlk : dlookup (fusedDict bm sem) q.1 = some q.2 :=
    dlookup_of_mem_nodup _ q.1 q.2 (nodup_dkeys_fusedDict bm sem) (by simpa using hq)
  have hsc : rrfOf (fusedDict bm sem) q.1 = q.2.rrf_score := by simp [rrfOf, hlk]
  have := rrfOf_fusedDict bm sem q.1 ht
  rw [hsc] at this
  simpa [hid] using this

/-- The fused output is non-increasing in the fused score. -/
theorem rrf_pairwise (bm sem : List (Movie × ℚ)) :
    (reciprocal_rank_fusion bm sem).Pairwise
      (fun a b => (b : Movie × ℚ).2 ≤ (a : Movie × ℚ).2) := by
  rw [rrf_eq_of_fusedDict, List.pairwise_map]
  exact pairwise_sortDesc RRFEntry.rrf_score _

/-! ### Claim theorems about RRF -/

/-- **C1.**  For every pair of input ranked lists (well-formed: every id
truthy, ids distinct within each list), reciprocal rank fusion assigns
each item with a given id a fused score equal to the sum over the lists
containing it of `1/(60+r)`, `r` its 1-based rank in that list (absence
contributing 0); an item appearing in both lists yields exactly one
output record keyed by its id (never two, never double-counted); and the
output is the union of the items of both lists, ordered descending by
fused score. -/
theorem C1_rrf_fusion_correct (bm sem : List (Movie × ℚ))
    (hbm : ∀ p ∈ bm, (p : Movie × ℚ).1.id.truthy = true)
    (hsem : ∀ p ∈ sem, (p : Movie × ℚ).1.id.truthy = true)
    (hbmnd : (bm.map (fun p => (p : Movie × ℚ).1.id)).Nodup)
    (hsemnd : (sem.map (fun p => (p : Movie × ℚ).1.id)).Nodup) :
    (∀ i : MovieId,
        (∃ p ∈ reciprocal_rank_fusion bm sem, (p : Movie × ℚ).1.id = i) ↔
          ((∃ p ∈ bm, (p : Movie × ℚ).1.id = i) ∨
            (∃ p ∈ sem, (p : Movie × ℚ).1.id = i)))
      ∧ ((reciprocal_rank_fusion bm sem).map (fun p => (p : Movie × ℚ).1.id)).Nodup
      ∧ (∀ p ∈ reciprocal_rank_fusion bm sem,
          (p : Movie × ℚ).2 = specContrib p.1.id bm + specContrib p.1.id sem)
      ∧ (reciprocal_rank_fusion bm sem).Pairwise
          (fun a b => (b : Movie × ℚ).2 ≤ (a : Movie × ℚ).2) := by
  refine ⟨?_, nodup_rrf_ids bm sem, ?_, rrf_pairwise bm sem⟩
  · intro i
    rw [mem_rrf_ids_iff, mem_dkeys_fusedDict]
    constructor
    · rintro ⟨-, h⟩; exact h
    · rintro (⟨p, hp, rfl⟩ | ⟨p, hp, rfl⟩)
      · exact ⟨hbm p hp, Or.inl ⟨p, hp, rfl⟩⟩
      · exact ⟨hsem p hp, Or.inr ⟨p, hp, rfl⟩⟩
  · intro p hp
    rw [rrf_score_eq bm sem p hp, specContrib_eq _ _ hbmnd, specContrib_eq _ _ hsemnd]

/-- **C4.**  RRF is scale-invariant: replacing the raw scores of either
input list by a strictly order-preserving rescaling (which leaves the
list's item order unchanged) produces the same fused item order — the
fusion uses rank positions only, never raw score magnitudes. -/
theorem C4_rrf_scale_invariant (bm sem : List (Movie × ℚ)) (φ ψ : ℚ → ℚ)
    (hφ : StrictMono φ) (hψ : StrictMono ψ) :
    (reciprocal_rank_fusion (bm.map (fun p => ((p : Movie × ℚ).1, φ p.2))) sem).map
        Prod.fst = (reciprocal_rank_fusion bm sem).map Prod.fst
      ∧ (reciprocal_rank_fusion bm
          (sem.map (fun p => ((p : Movie × ℚ).1, ψ p.2)))).map Prod.fst
        = (reciprocal_rank_fusion bm sem).map Prod.fst := by
  constructor
  · rw [rrf_congr (bm.map (fun p => ((p : Movie × ℚ).1, φ p.2))) bm sem sem
      (by simp [List.map_map]) rfl]
  · rw [rrf_congr bm bm (sem.map (fun p => ((p : Movie × ℚ).1, ψ p.2))) sem rfl
      (by simp [List.map_map])]

/-- **C10.**  A candidate enters the fused output iff its id is truthy:
records with absent/`None`/`0`/`""` ids are silently dropped and add no
term to any fused score, while every truthy id occurring in the inputs
is keyed by exactly one output record. -/
theorem C10_rrf_truthy_ids (bm sem : List (Movie × ℚ)) :
    (∀ p ∈ reciprocal_rank_fusion bm sem, (p : Movie × ℚ).1.id.truthy = true)
      ∧ (∀ q ∈ bm ++ sem, (q : Movie × ℚ).1.id.truthy = true →
          ((reciprocal_rank_fusion bm sem).map
            (fun p => (p : Movie × ℚ).1.id)).count q.1.id = 1)
      ∧ (∀ p ∈ reciprocal_rank_fusion bm sem,
          (p : Movie × ℚ).2 = rankContrib p.1.id bm 1 + rankContrib p.1.id sem 1) := by
  refine ⟨rrf_truthy bm sem, ?_, rrf_score_eq bm sem⟩
  intro q hq ht
  have hmem : q.1.id ∈
      (reciprocal_rank_fusion bm sem).map (fun p => (p : Movie × ℚ).1.id) := by
    rw [(rrf_ids_perm bm sem).mem_iff, mem_dkeys_fusedDict]
    rcases List.mem_append.mp hq with hq | hq
    · exact ⟨ht, Or.inl ⟨q, hq, rfl⟩⟩
    · exact ⟨ht, Or.inr ⟨q, hq, rfl⟩⟩
  exact List.count_eq_one_of_mem (nodup_rrf_ids bm sem) hmem

/-! ### Concrete inputs for the RRF witnesses (the spec's §8 scenario) -/

def wA : Movie := { id := MovieId.int 1 }
def wB : Movie := { id := MovieId.int 2 }
def wC : Movie := { id := MovieId.int 3 }
def wD : Movie := { id := MovieId.int 4 }

def w_bm25 : List (Movie × ℚ) := [(wA, 5), (wB, 3), (wC, 1)]
def w_sem : List (Movie × ℚ) := [(wB, 9/10), (wA, 4/5), (wD, 1/2)]

/-- C1 instantiated at the spec's scenario lists, hypotheses discharged. -/
theorem C1_rrf_fusion_correct_witness :
    ((∀ p ∈ w_bm25, (p : Movie × ℚ).1.id.truthy = true)
        ∧ (∀ p ∈ w_sem, (p : Movie × ℚ).1.id.truthy = true)
        ∧ (w_bm25.map (fun p => (p : Movie × ℚ).1.id)).Nodup
        ∧ (w_sem.map (fun p => (p : Movie × ℚ).1.id)).Nodup)
      ∧ ((∀ i : MovieId,
            (∃ p ∈ reciprocal_rank_fusion w_bm25 w_sem, (p : Movie × ℚ).1.id = i) ↔
              ((∃ p ∈ w_bm25, (p : Movie × ℚ).1.id = i) ∨
                (∃ p ∈ w_sem, (p : Movie × ℚ).1.id = i)))
          ∧ ((reciprocal_rank_fusion w_bm25 w_sem).map
              (fun p => (p : Movie × ℚ).1.id)).Nodup
          ∧ (∀ p ∈ reciprocal_rank_fusion w_bm25 w_sem,
              (p : Movie × ℚ).2 = specContrib p.1.id w_bm25 + specContrib p.1.id w_sem)
          ∧ (reciprocal_rank_fusion w_bm25 w_sem).Pairwise
              (fun a b => (b : Movie × ℚ).2 ≤ (a : Movie × ℚ).2)) :=
  ⟨⟨by decide, by decide, by decide, by decide⟩,
    C1_rrf_fusion_correct w_bm25 w_sem (by decide) (by decide) (by decide) (by decide)⟩

/-- C4 instantiated at concrete strictly monotone rescalings. -/
theorem C4_rrf_scale_invariant_witness :
    StrictMono (fun q : ℚ => 2 * q + 1) ∧ StrictMono (fun q : ℚ => 3 * q)
      ∧ ((reciprocal_rank_fusion
            (w_bm25.map (fun p => ((p : Movie × ℚ).1, (fun q : ℚ => 2 * q + 1) p.2)))
            w_sem).map Prod.fst
          = (reciprocal_rank_fusion w_bm25 w_sem).map Prod.fst
        ∧ (reciprocal_rank_fusion w_bm25
            (w_sem.map (fun p => ((p : Movie × ℚ).1, (fun q : ℚ => 3 * q) p.2)))).map
              Prod.fst
          = (reciprocal_rank_fusion w_bm25 w_sem).map Prod.fst) := by
  have h1 : StrictMono (fun q : ℚ => 2 * q + 1) := by
    intro a b h
    dsimp
    linarith
  have h2 : StrictMono (fun q : ℚ => 3 * q) := by
    intro a b h
    dsimp
    linarith
  exact ⟨h1, h2, C4_rrf_scale_invariant w_bm25 w_sem
    (fun q : ℚ => 2 * q + 1) (fun q : ℚ => 3 * q) h1 h2⟩

def w_zero : Movie := { id := MovieId.int 0 }
def w_empty : Movie := { id := MovieId.str "" }
def w_noid : Movie := { id := MovieId.null }

def w_bm25f : List (Movie × ℚ) := [(w_zero, 7), (wA, 5), (w_empty, 4)]
def w_semf : List (Movie × ℚ) := [(w_noid, 1), (wA, 1/2)]

/-- C10 instantiated at lists containing absent/`None`/`0`/`""` ids. -/
theorem C10_rrf_truthy_ids_witness :
    (∀ p ∈ reciprocal_rank_fusion w_bm25f w_semf, (p : Movie × ℚ).1.id.truthy = true)
      ∧ (∀ q ∈ w_bm25f ++ w_semf, (q : Movie × ℚ).1.id.truthy = true →
          ((reciprocal_rank_fusion w_bm25f w_semf).map
            (fun p => (p : Movie × ℚ).1.id)).count q.1.id = 1)
      ∧ (∀ p ∈ reciprocal_rank_fusion w_bm25f w_semf,
          (p : Movie × ℚ).2 = rankContrib p.1.id w_bm25f 1
            + rankContrib p.1.id w_semf 1) :=
  C10_rrf_truthy_ids w_bm25f w_semf

/-! ## BM25 sparse retrieval — `BM25Retriever`

`_tokenize` lower-cases and takes the `\w+` runs (`re.findall`); the
third-party `rank_bm25.BM25Okapi` scorer is abstracted by a per-token,
per-document weight function: `get_scores(q)` is, per document, the sum
of the weights of the query tokens (the standard BM25 shape — an empty
query always scores 0 everywhere).  `numpy.argsort` is modelled as the
stable ascending sort `sortAsc` (ties by index), which matches numpy on
the tiny arrays the counterexample uses. -/

/-- A `\w` character: alphanumeric or underscore. -/
def isWordChar (c : Char) : Bool := c.isAlphanum || c == '_'

/-- Collect the maximal runs of characters satisfying `p` (the current
partial run is carried reversed). -/
def runsAux (p : Char → Bool) : List Char → List Char → List String
  | cur, [] => if cur.isEmpty then [] else [String.mk cur.reverse]
  | cur, c :: cs =>
    if p c then runsAux p (c :: cur) cs
    else if cur.isEmpty then runsAux p [] cs
    else String.mk cur.reverse :: runsAux p [] cs

/-- Python `str.lower()` (character-wise, ASCII-faithful). -/
def lowerStr (s : String) : String := String.mk (s.data.map Char.toLower)

/-- `BM25Retriever._tokenize` (lines 15–20): lower-case, `\w+` runs. -/
def pyTokenize (s : String) : List String := runsAux isWordChar [] (lowerStr s).data

/-- Post-`build_index` state of `BM25Retriever`.  `build_index` leaves
`self.bm25 = None` exactly when the corpus is empty (it only constructs
`BM25Okapi` for a non-empty `tokenized_corpus`), so `search`'s
`if not self.bm25` guard is an emptiness test here. -/
structure BM25State where
  movies : List Movie
  termScore : String → ℕ → ℚ

/-- `self.bm25.get_scores(tokenized_query)` under the abstraction. -/
def BM25State.get_scores (st : BM25State) (query_tokens : List String) : List ℚ :=
  (List.range st.movies.length).map
    (fun d => (query_tokens.map (fun t => st.termScore t d)).sum)

/-- Python `arr[-k:]`: for `k = 0` the whole array (`[-0:]` is `[0:]`),
otherwise the trailing `min k len` entries. -/
def pyTakeLast (l : List α) (k : ℕ) : List α :=
  if k = 0 then l else l.drop (l.length - k)

/-- `scores.argsort()`: document indices, ascending by score. -/
def argsort (scores : List ℚ) : List ℕ :=
  sortAsc (fun i => scores.getD i 0) (List.range scores.length)

/-- `top_indices = scores.argsort()[-k:][::-1]` followed by the loop
keeping only strictly positive scores, in order (lines 87–94). -/
def topPositive (scores : List ℚ) (k : ℕ) : List (ℕ × ℚ) :=
  ((pyTakeLast (argsort scores) k).reverse).filterMap
    (fun i => if 0 < scores.getD i 0 then some (i, scores.getD i 0) else Option.none)

/-- `BM25Retriever.search` (lines 74–95) in index/score form: guard the
missing index, tokenize, score, `argsort()[-k:][::-1]`, then keep only
the strictly positive scores, in order. -/
def BM25State.searchIdx (st : BM25State) (query : String) (k : ℕ) : List (ℕ × ℚ) :=
  if st.movies = [] then []
  else topPositive (st.get_scores (pyTokenize query)) k

/-- `BM25Retriever.search`: the returned `(movie, score)` pairs. -/
def BM25State.search (st : BM25State) (query : String) (k : ℕ) : List (Movie × ℚ) :=
  (st.searchIdx query k).map (fun p => (st.movies.getD p.1 default, p.2))

theorem pyTakeLast_sublist (l : List α) (k : ℕ) : (pyTakeLast l k).Sublist l := by
  unfold pyTakeLast
  split
  · exact List.Sublist.refl l
  · exact List.drop_sublist _ l

theorem pyTakeLast_length_le (l : List α) (k : ℕ) (hk : 1 ≤ k) :
    (pyTakeLast l k).length ≤ k := by
  unfold pyTakeLast
  rw [if_neg (by omega), List.length_drop]
  omega

/-- The kept indices are strictly-positive-scored, in non-increasing
score order, ties in strictly decreasing index order. -/
theorem topPositive_pairwise (scores : List ℚ) (k : ℕ) :
    (topPositive scores k).Pairwise
      (fun a b => (b : ℕ × ℚ).2 ≤ (a : ℕ × ℚ).2
        ∧ ((a : ℕ × ℚ).2 ≤ (b : ℕ × ℚ).2 → b.1 < a.1)) := by
  have h0 : (argsort scores).Pairwise
      (fun i j => scores.getD i 0 ≤ scores.getD j 0
        ∧ (scores.getD j 0 ≤ scores.getD i 0 → i < j)) :=
    pairwise_sortAsc _ (· < ·) _ (List.pairwise_lt_range _)
  have h1 := List.Pairwise.sublist (pyTakeLast_sublist (argsort scores) k) h0
  have h2 : ((pyTakeLast (argsort scores) k).reverse).Pairwise
      (fun j i => scores.getD i 0 ≤ scores.getD j 0
        ∧ (scores.getD j 0 ≤ scores.getD i 0 → i < j)) :=
    List.pairwise_reverse.mpr h1
  refine List.pairwise_filterMap.mpr (h2.imp ?_)
  intro j i hji x hx y hy
  by_cases hj : 0 < scores.getD j 0
  · by_cases hi : 0 < scores.getD i 0
    · simp only [if_pos hj] at hx
      simp only [if_pos hi] at hy
      rcases Option.mem_some_iff.mp hx with rfl
      rcases Option.mem_some_iff.mp hy with rfl
      exact hji
    · rw [if_neg hi] at hy
      exact absurd hy (Option.not_mem_none _)
  · rw [if_neg hj] at hx
    exact absurd hx (Option.not_mem_none _)

theorem topPositive_length (scores : List ℚ) (k : ℕ) (hk : 1 ≤ k) :
    (topPositive scores k).length ≤ k := by
  refine le_trans (List.length_filterMap_le _ _) ?_
  rw [List.length_reverse]
  exact pyTakeLast_length_le _ _ hk

theorem topPositive_pos (scores : List ℚ) (k : ℕ) (p : ℕ × ℚ)
    (hp : p ∈ topPositive scores k) : 0 < p.2 := by
  rcases List.mem_filterMap.mp hp with ⟨i, -, hi⟩
  by_cases h : 0 < scores.getD i 0
  · rw [if_pos h] at hi
    rcases Option.some_inj.mp hi with rfl
    exact h
  · rw [if_neg h] at hi
    cases hi

theorem getD_map_zero (l : List α) (i : ℕ) :
    ((l.map (fun _ => (0 : ℚ))).getD i 0) = 0 := by
  induction l generalizing i with
  | nil => simp
  | cons a t ih =>
    cases i with
    | zero => simp
    | succ n => simpa using ih n

/-! ### Claim theorems about BM25 search -/

/-- **C3 counterexample.**  Two documents with equal positive scores
(the scorer weighs every token at 1 for both, as `BM25Okapi` does for
two identical documents): the output order is `[1, 0]`, the REVERSE of
insertion order, because `argsort()` puts tied indices ascending and the
`[::-1]` reversal flips them.  So ties are *not* broken by original
insertion order. -/
theorem C3_counterexample :
    ¬ ((BM25State.mk [wA, wB] (fun _ _ => 1)).searchIdx "q" 2).Pairwise
        (fun a b => (a : ℕ × ℚ).2 = (b : ℕ × ℚ).2 → a.1 ≤ b.1) := by
  have hsc : (BM25State.mk [wA, wB] (fun _ _ => 1)).get_scores (pyTokenize "q")
      = [1, 1] := by
    rw [show pyTokenize "q" = ["q"] from by decide]
    simp [BM25State.get_scores, List.range_succ]
  have hidx : (BM25State.mk [wA, wB] (fun _ _ => 1)).searchIdx "q" 2
      = [(1, 1), (0, 1)] := by
    unfold BM25State.searchIdx
    rw [if_neg (by simp), hsc]
    decide
  rw [hidx]
  decide

/-- **C3 (amended).**  For every non-empty corpus, query and `k ≥ 1`,
BM25 search returns at most `k` items, each with strictly positive
score, in non-increasing score order, with ties between equal scores in
*reverse* insertion order (later documents first). -/
theorem C3_bm25_search_amended (st : BM25State) (query : String) (k : ℕ)
    (hk : 1 ≤ k) (hne : st.movies ≠ []) :
    (st.search query k).length ≤ k
      ∧ (∀ p ∈ st.search query k, 0 < (p : Movie × ℚ).2)
      ∧ (st.search query k).Pairwise
          (fun a b => (b : Movie × ℚ).2 ≤ (a : Movie × ℚ).2)
      ∧ (st.searchIdx query k).Pairwise
          (fun a b => (b : ℕ × ℚ).2 ≤ (a : ℕ × ℚ).2
            ∧ ((a : ℕ × ℚ).2 ≤ (b : ℕ × ℚ).2 → b.1 < a.1)) := by
  have hpw : (st.searchIdx query k).Pairwise
      (fun a b => (b : ℕ × ℚ).2 ≤ (a : ℕ × ℚ).2
        ∧ ((a : ℕ × ℚ).2 ≤ (b : ℕ × ℚ).2 → b.1 < a.1)) := by
    unfold BM25State.searchIdx
    split
    · simp
    · exact topPositive_pairwise _ k
  have hlen : (st.searchIdx query k).length ≤ k := by
    unfold BM25State.searchIdx
    split
    · simpa using hk
    · exact topPositive_length _ k hk
  have hpos : ∀ p ∈ st.searchIdx query k, 0 < (p : ℕ × ℚ).2 := by
    intro p hp
    have : st.searchIdx query k
        = topPositive (st.get_scores (pyTokenize query)) k := by
      unfold BM25State.searchIdx
      rw [if_neg hne]
    rw [this] at hp
    exact topPositive_pos _ k p hp
  refine ⟨?_, ?_, ?_, hpw⟩
  · simpa [BM25State.search] using hlen
  · intro p hp
    rcases List.mem_map.mp hp with ⟨q, hq, rfl⟩
    exact hpos q hq
  · exact List.pairwise_map.mpr (hpw.imp (fun h => h.1))

/-- C3's amended statement instantiated at a concrete 2-document corpus. -/
theorem C3_bm25_search_amended_witness :
    (1 ≤ 2 ∧ (BM25State.mk [wA, wB] (fun _ _ => 1)).movies ≠ [])
      ∧ (((BM25State.mk [wA, wB] (fun _ _ => 1)).search "q" 2).length ≤ 2
        ∧ (∀ p ∈ (BM25State.mk [wA, wB] (fun _ _ => 1)).search "q" 2,
            0 < (p : Movie × ℚ).2)
        ∧ ((BM25State.mk [wA, wB] (fun _ _ => 1)).search "q" 2).Pairwise
            (fun a b => (b : Movie × ℚ).2 ≤ (a : Movie × ℚ).2)
        ∧ ((BM25State.mk [wA, wB] (fun _ _ => 1)).searchIdx "q" 2).Pairwise
            (fun a b => (b : ℕ × ℚ).2 ≤ (a : ℕ × ℚ).2
              ∧ ((a : ℕ × ℚ).2 ≤ (b : ℕ × ℚ).2 → b.1 < a.1))) :=
  ⟨⟨by omega, by simp⟩,
    C3_bm25_search_amended (BM25State.mk [wA, wB] (fun _ _ => 1)) "q" 2
      (by omega) (by simp)⟩

/-- **C9.**  BM25 search degrades to an empty result, not an error: an
empty corpus (no index built) returns `[]` for every query and `k`, and
a non-empty corpus returns `[]` for the empty query string. -/
theorem C9_bm25_empty_degraded (ts : String → ℕ → ℚ) (st : BM25State)
    (query : String) (k j : ℕ) (hne : st.movies ≠ []) :
    (BM25State.mk [] ts).search query k = [] ∧ st.search "" j = [] := by
  constructor
  · unfold BM25State.search BM25State.searchIdx
    rw [if_pos rfl]
    rfl
  · unfold BM25State.search BM25State.searchIdx
    rw [if_neg hne, show pyTokenize "" = [] from by decide]
    suffices h : topPositive (st.get_scores []) j = [] by rw [h]; rfl
    unfold topPositive
    rw [List.filterMap_eq_nil_iff]
    intro i hi
    have hz : (st.get_scores []).getD i 0 = 0 := by
      unfold BM25State.get_scores
      simp only [List.map_nil, List.sum_nil]
      exact getD_map_zero _ _
    rw [hz]
    simp

/-- C9 instantiated: empty corpus, and the spec's 3-document corpus with
an empty query. -/
theorem C9_bm25_empty_degraded_witness :
    (BM25State.mk [] (fun _ _ => (1 : ℚ))).search "space adventure" 5 = []
      ∧ (BM25State.mk [wA, wB, wC] (fun _ _ => (1 : ℚ))).search "" 5 = [] :=
  C9_bm25_empty_degraded (fun _ _ => (1 : ℚ))
    (BM25State.mk [wA, wB, wC] (fun _ _ => (1 : ℚ))) "space adventure" 5 5 (by simp)

/-! ## Composite re-ranking — `IntelligentReRanker` and `Config`

`config.py` defines FIVE re-ranking weights as plain class constants
(`0.3/0.2/0.2/0.15/0.15`, no keyword weight and no environment
override); `IntelligentReRanker.__init__` copies them onto the instance,
but `calculate_composite_score` uses hardcoded literals
`0.25/0.2/0.2/0.15/0.1/0.1` instead.  The two float-valued signals built
from `np.exp`/`np.log10` (`_calculate_recency_boost`,
`_normalize_popularity`) are abstracted as opaque rational functions. -/

namespace Config

/-- `config.py` line 46: `SEMANTIC_WEIGHT = 0.3`. -/
def SEMANTIC_WEIGHT : ℚ := 3/10

/-- `config.py` line 47: `GENRE_WEIGHT = 0.2`. -/
def GENRE_WEIGHT : ℚ := 1/5

/-- `config.py` line 48: `RATING_WEIGHT = 0.2`. -/
def RATING_WEIGHT : ℚ := 1/5

/-- `config.py` line 49: `RECENCY_WEIGHT = 0.15`. -/
def RECENCY_WEIGHT : ℚ := 3/20

/-- `config.py` line 50: `POPULARITY_WEIGHT = 0.15`. -/
def POPULARITY_WEIGHT : ℚ := 3/20

end Config

/-- `IntelligentReRanker` instance state: the five weights copied from
`config` by `__init__` (lines 11–17), plus the two opaque float-valued
sub-signals. -/
structure IntelligentReRanker where
  semantic_weight : ℚ
  genre_weight : ℚ
  rating_weight : ℚ
  recency_weight : ℚ
  popularity_weight : ℚ
  recencyScore : Movie → ℚ
  popularityScore : Movie → ℚ

/-- `IntelligentReRanker.__init__`: weights loaded from `config`. -/
def mkReRanker (rec pop : Movie → ℚ) : IntelligentReRanker :=
  { semantic_weight := Config.SEMANTIC_WEIGHT
    genre_weight := Config.GENRE_WEIGHT
    rating_weight := Config.RATING_WEIGHT
    recency_weight := Config.RECENCY_WEIGHT
    popularity_weight := Config.POPULARITY_WEIGHT
    recencyScore := rec
    popularityScore := pop }

/-- The stop-word set of `_calculate_keyword_match` (line 67). -/
def stop_words : List String :=
  ["a", "an", "the", "of", "in", "on", "at", "to", "for", "and", "or",
   "but", "me", "about"]

/-- Python `str.split()` with no argument: whitespace runs dropped. -/
def pySplitWs (s : String) : List String :=
  runsAux (fun c => !c.isWhitespace) [] s.data

/-- `set(query.lower().split()) - stop_words` (lines 63–68): the
distinct content words of the query. -/
def queryContentWords (query : String) : List String :=
  ((pySplitWs (lowerStr query)).dedup).filter (fun w => !(stop_words.contains w))

/-- `_calculate_keyword_match` (lines 61–87): 0 when no content words
remain; otherwise the matched fraction of content words in the title
(weight 0.6) plus in the overview (weight 0.4), capped at 1. -/
def keyword_match (movie : Movie) (query : String) : ℚ :=
  if queryContentWords query = [] then 0
  else
    let qk := queryContentWords query
    let title_matches := ((pySplitWs (lowerStr (movie.title.getD ""))).dedup.filter
      (fun w => qk.contains w)).length
    let overview_matches := ((pySplitWs (lowerStr (movie.overview.getD ""))).dedup.filter
      (fun w => qk.contains w)).length
    min ((title_matches : ℚ) / qk.length * (3/5)
      + (overview_matches : ℚ) / qk.length * (2/5)) 1

/-- `_calculate_genre_overlap` (lines 89–108): 0.5 sentinel for an
empty/missing genre filter, 0 for a movie without genres, otherwise
`|movie.genres ∩ query.genres| / |query.genres|` on lower-cased names. -/
def genre_overlap (movie : Movie) (query_genres : List String) : ℚ :=
  if query_genres = [] then 1/2
  else
    let movie_genre_names := (movie.genres.map lowerStr).dedup
    let query_genre_names := (query_genres.map lowerStr).dedup
    if movie_genre_names = [] then 0
    else
      let overlap := (movie_genre_names.filter
        (fun g => query_genre_names.contains g)).length
      let max_possible := query_genre_names.length
      if 0 < max_possible then (overlap : ℚ) / max_possible else 0

/-- `_normalize_rating` (lines 110–112): `min(rating / 10.0, 1.0)`. -/
def normalize_rating (rating : ℚ) : ℚ := min (rating / 10) 1

/-- `calculate_composite_score` (lines 19–59): the weighted sum with the
hardcoded literal weights of lines 50–57; the `self.*_weight` fields are
never consulted. -/
def calculate_composite_score (r : IntelligentReRanker) (movie : Movie)
    (query : String) (semantic_similarity : ℚ) (query_genres : List String) : ℚ :=
  1/4 * semantic_similarity
    + 1/5 * genre_overlap movie query_genres
    + 1/5 * normalize_rating movie.vote_average
    + 3/20 * r.recencyScore movie
    + 1/10 * r.popularityScore movie
    + 1/10 * keyword_match movie query

/-! ### Claim theorems about the re-ranker -/

/-- **C2 counterexample.**  The externally configurable weights default
to `0.3/0.2/0.2/0.15/0.15` — five weights, the first of which is not the
claimed `0.25` — and the composite ignores the configured weights
entirely: a re-ranker whose loaded semantic weight is changed to `0.25`
produces the very same composite score. -/
theorem C2_counterexample :
    Config.SEMANTIC_WEIGHT ≠ 1/4
      ∧ (mkReRanker (fun _ => 1/2) (fun _ => 1/2)).semantic_weight
          ≠ ({ mkReRanker (fun _ => 1/2) (fun _ => 1/2) with
                semantic_weight := 1/4 } : IntelligentReRanker).semantic_weight
      ∧ calculate_composite_score (mkReRanker (fun _ => 1/2) (fun _ => 1/2))
            wA "q" (1/2) []
          = calculate_composite_score
              ({ mkReRanker (fun _ => 1/2) (fun _ => 1/2) with
                semantic_weight := 1/4 } : IntelligentReRanker) wA "q" (1/2) [] :=
  ⟨by norm_num [Config.SEMANTIC_WEIGHT],
    by norm_num [mkReRanker, Config.SEMANTIC_WEIGHT], rfl⟩

/-- **C2 (amended).**  The composite equals
`0.25·fused + 0.20·genre + 0.20·rating + 0.15·recency + 0.10·popularity
+ 0.10·keyword` with these six weights hardcoded in the scoring code
(they sum to 1.0); the composite is independent of the re-ranker's
configured weights, whose defaults are the five values
`0.3/0.2/0.2/0.15/0.15` with no keyword weight. -/
theorem C2_composite_formula (r : IntelligentReRanker) (movie : Movie)
    (query : String) (sem : ℚ) (query_genres : List String) :
    calculate_composite_score r movie query sem query_genres
        = 1/4 * sem + 1/5 * genre_overlap movie query_genres
          + 1/5 * normalize_rating movie.vote_average
          + 3/20 * r.recencyScore movie + 1/10 * r.popularityScore movie
          + 1/10 * keyword_match movie query
      ∧ ((1 : ℚ)/4 + 1/5 + 1/5 + 3/20 + 1/10 + 1/10) = 1
      ∧ (∀ r' : IntelligentReRanker,
          r'.recencyScore = r.recencyScore →
          r'.popularityScore = r.popularityScore →
          calculate_composite_score r' movie query sem query_genres
            = calculate_composite_score r movie query sem query_genres)
      ∧ (mkReRanker r.recencyScore r.popularityScore).semantic_weight = 3/10
      ∧ (mkReRanker r.recencyScore r.popularityScore).genre_weight = 1/5
      ∧ (mkReRanker r.recencyScore r.popularityScore).rating_weight = 1/5
      ∧ (mkReRanker r.recencyScore r.popularityScore).recency_weight = 3/20
      ∧ (mkReRanker r.recencyScore r.popularityScore).popularity_weight = 3/20 := by
  refine ⟨rfl, by norm_num, ?_, rfl, rfl, rfl, rfl, rfl⟩
  intro r' h1 h2
  unfold calculate_composite_score
  rw [h1, h2]

/-- C2's amended statement at a concrete re-ranker and candidate. -/
theorem C2_composite_formula_witness :
    calculate_composite_score (mkReRanker (fun _ => 1/2) (fun _ => 3/4))
          wB "space" (9/10) ["action"]
        = 1/4 * (9/10) + 1/5 * genre_overlap wB ["action"]
          + 1/5 * normalize_rating wB.vote_average
          + 3/20 * (mkReRanker (fun _ => 1/2) (fun _ => 3/4)).recencyScore wB
          + 1/10 * (mkReRanker (fun _ => 1/2) (fun _ => 3/4)).popularityScore wB
          + 1/10 * keyword_match wB "space"
      ∧ ((1 : ℚ)/4 + 1/5 + 1/5 + 3/20 + 1/10 + 1/10) = 1
      ∧ (∀ r' : IntelligentReRanker,
          r'.recencyScore = (mkReRanker (fun _ => 1/2) (fun _ => 3/4)).recencyScore →
          r'.popularityScore
            = (mkReRanker (fun _ => 1/2) (fun _ => 3/4)).popularityScore →
          calculate_composite_score r' wB "space" (9/10) ["action"]
            = calculate_composite_score (mkReRanker (fun _ => 1/2) (fun _ => 3/4))
                wB "space" (9/10) ["action"])
      ∧ (mkReRanker (mkReRanker (fun _ => 1/2) (fun _ => 3/4)).recencyScore
          (mkReRanker (fun _ => 1/2) (fun _ => 3/4)).popularityScore).semantic_weight
          = 3/10
      ∧ (mkReRanker (mkReRanker (fun _ => 1/2) (fun _ => 3/4)).recencyScore
          (mkReRanker (fun _ => 1/2) (fun _ => 3/4)).popularityScore).genre_weight
          = 1/5
      ∧ (mkReRanker (mkReRanker (fun _ => 1/2) (fun _ => 3/4)).recencyScore
          (mkReRanker (fun _ => 1/2) (fun _ => 3/4)).popularityScore).rating_weight
          = 1/5
      ∧ (mkReRanker (mkReRanker (fun _ => 1/2) (fun _ => 3/4)).recencyScore
          (mkReRanker (fun _ => 1/2) (fun _ => 3/4)).popularityScore).recency_weight
          = 3/20
      ∧ (mkReRanker (mkReRanker (fun _ => 1/2) (fun _ => 3/4)).recencyScore
          (mkReRanker (fun _ => 1/2) (fun _ => 3/4)).popularityScore).popularity_weight
          = 3/20 :=
  C2_composite_formula (mkReRanker (fun _ => 1/2) (fun _ => 3/4)) wB "space"
    (9/10) ["action"]

/-- **C7.**  The zero-division guards: with an empty query-genre set the
genre-overlap signal is exactly the neutral `0.5` sentinel for every
candidate, and with zero content words after stop-word removal the
keyword-match signal is exactly `0.0`. -/
theorem C7_zero_division_guards (movie movie' : Movie) (query : String)
    (hq : queryContentWords query = []) :
    genre_overlap movie [] = 1/2 ∧ keyword_match movie' query = 0 := by
  constructor
  · rfl
  · unfold keyword_match
    rw [if_pos hq]

/-- C7 at a concrete stop-word-only query and concrete candidates. -/
theorem C7_zero_division_guards_witness :
    queryContentWords "The of ABOUT the" = []
      ∧ (genre_overlap { id := MovieId.int 9, genres := ["action"] } [] = 1/2
        ∧ keyword_match wA "The of ABOUT the" = 0) :=
  ⟨by decide,
    C7_zero_division_guards { id := MovieId.int 9, genres := ["action"] } wA
      "The of ABOUT the" (by decide)⟩

/-- **C8.**  Whenever each of the six sub-signals lies in `[0, 1]`, the
composite score lies in `[0, 1]`. -/
theorem C8_composite_bounded (r : IntelligentReRanker) (movie : Movie)
    (query : String) (sem : ℚ) (query_genres : List String)
    (h1 : 0 ≤ sem) (h2 : sem ≤ 1)
    (h3 : 0 ≤ genre_overlap movie query_genres)
    (h4 : genre_overlap movie query_genres ≤ 1)
    (h5 : 0 ≤ normalize_rating movie.vote_average)
    (h6 : normalize_rating movie.vote_average ≤ 1)
    (h7 : 0 ≤ r.recencyScore movie) (h8 : r.recencyScore movie ≤ 1)
    (h9 : 0 ≤ r.popularityScore movie) (h10 : r.popularityScore movie ≤ 1)
    (h11 : 0 ≤ keyword_match movie query) (h12 : keyword_match movie query ≤ 1) :
    0 ≤ calculate_composite_score r movie query sem query_genres
      ∧ calculate_composite_score r movie query sem query_genres ≤ 1 := by
  unfold calculate_composite_score
  constructor
  · linarith
  · linarith

def w8 : Movie := { id := MovieId.int 5, vote_average := 7 }

/-- C8 at a concrete candidate with every sub-signal evaluated. -/
theorem C8_composite_bounded_witness :
    ((0 : ℚ) ≤ 1/2 ∧ (1 : ℚ)/2 ≤ 1
        ∧ 0 ≤ genre_overlap w8 [] ∧ genre_overlap w8 [] ≤ 1
        ∧ 0 ≤ normalize_rating w8.vote_average
        ∧ normalize_rating w8.vote_average ≤ 1
        ∧ 0 ≤ keyword_match w8 "" ∧ keyword_match w8 "" ≤ 1)
      ∧ (0 ≤ calculate_composite_score (mkReRanker (fun _ => 1/2) (fun _ => 1/2))
            w8 "" (1/2) []
        ∧ calculate_composite_score (mkReRanker (fun _ => 1/2) (fun _ => 1/2))
            w8 "" (1/2) [] ≤ 1) := by
  have hg : genre_overlap w8 [] = 1/2 := rfl
  have hkw : keyword_match w8 "" = 0 := rfl
  have hnr : normalize_rating w8.vote_average = 7/10 := by
    show min ((7 : ℚ) / 10) 1 = 7/10
    rw [min_eq_left (by norm_num)]
  refine ⟨⟨by norm_num, by norm_num, by rw [hg]; norm_num, by rw [hg]; norm_num,
      by rw [hnr]; norm_num, by rw [hnr]; norm_num,
      by rw [hkw], by rw [hkw]; norm_num⟩, ?_⟩
  exact C8_composite_bounded (mkReRanker (fun _ => 1/2) (fun _ => 1/2)) w8 "" (1/2) []
    (by norm_num) (by norm_num) (by rw [hg]; norm_num) (by rw [hg]; norm_num)
    (by rw [hnr]; norm_num) (by rw [hnr]; norm_num)
    (by show (0:ℚ) ≤ 1/2; norm_num) (by show (1:ℚ)/2 ≤ 1; norm_num)
    (by show (0:ℚ) ≤ 1/2; norm_num) (by show (1:ℚ)/2 ≤ 1; norm_num)
    (by rw [hkw]) (by rw [hkw]; norm_num)

/-! ## MMR diversity selection — `DiversityFilter.apply_mmr`

The embedding extraction (lines 40–53) produces unit-normalised float
vectors from the external sentence-transformer model; their pairwise
cosine similarity is abstracted as `sim i j` over candidate positions.
`candidates[idx]` accesses use `getD` with a default that is never
reached (indices come from `range`). -/

/-- `DiversityFilter` instance state. -/
structure DiversityFilter where
  lambda_param : ℚ

/-- `max(cos(idx, sel) for sel in selected)`: Python `max` over a
nonempty generator (`selected` is nonempty throughout; the 0 for `[]` is
never reached). -/
def maxSimTo (sim : ℕ → ℕ → ℚ) (idx : ℕ) : List ℕ → ℚ
  | [] => 0
  | [j] => sim idx j
  | j :: rest => max (sim idx j) (maxSimTo sim idx rest)

/-- `mmr_score = λ·relevance − (1−λ)·max_sim` (line 83). -/
def mmrScore (f : DiversityFilter) (sim : ℕ → ℕ → ℚ) (cands : List (Movie × ℚ))
    (selected : List ℕ) (idx : ℕ) : ℚ :=
  f.lambda_param * (cands.getD idx default).2
    - (1 - f.lambda_param) * maxSimTo sim idx selected

/-- The `for idx in remaining_indices` scan (lines 69–87): strict `>`
against a running best started at `-inf` (modelled by `none`), so the
first index attaining the maximum wins. -/
def argmaxLoop (score : ℕ → ℚ) : List ℕ → Option (ℚ × ℕ) → Option (ℚ × ℕ)
  | [], best => best
  | i :: rest, best =>
    argmaxLoop score rest
      (match best with
       | Option.none => some (score i, i)
       | some (bs, bi) => if bs < score i then some (score i, i) else some (bs, bi))

/-- The `for _ in range(k - 1)` selection loop (lines 64–91): stop when
`remaining_indices` is exhausted, else move the argmax index from
`remaining` to `selected`. -/
def mmrLoop (f : DiversityFilter) (sim : ℕ → ℕ → ℚ) (cands : List (Movie × ℚ)) :
    ℕ → List ℕ → List ℕ → List ℕ
  | 0, selected, _ => selected
  | t + 1, selected, remaining =>
    if remaining = [] then selected
    else
      match argmaxLoop (mmrScore f sim cands selected) remaining Option.none with
      | some (_, bi) => mmrLoop f sim cands t (selected ++ [bi]) (remaining.erase bi)
      | Option.none => selected

/-- The index sequence `apply_mmr` selects past its cut: start from
`selected_indices = [0]`, `remaining_indices = [1, …, n-1]` (lines
56–62), then `k - 1` loop iterations. -/
def mmr_selected_indices (f : DiversityFilter) (sim : ℕ → ℕ → ℚ)
    (cands : List (Movie × ℚ)) (k : ℕ) : List ℕ :=
  mmrLoop f sim cands (k - 1) [0] ((List.range cands.length).drop 1)

/-- `DiversityFilter.apply_mmr` (lines 18–94): inputs no longer than `k`
pass through unchanged; otherwise return the MMR-selected candidates. -/
def apply_mmr (f : DiversityFilter) (sim : ℕ → ℕ → ℚ)
    (candidates : List (Movie × ℚ)) (k : ℕ) : List (Movie × ℚ) :=
  if candidates.length ≤ k then candidates
  else (mmr_selected_indices f sim candidates k).map
    (fun i => candidates.getD i default)

/-- The module-level `DiversityFilter(lambda_param=0.7)` (line 131). -/
def diversity_filter : DiversityFilter := { lambda_param := 7/10 }

theorem argmaxLoop_some (score : ℕ → ℚ) (l : List ℕ) (x : ℚ × ℕ) :
    ∃ y, argmaxLoop score l (some x) = some y := by
  induction l generalizing x with
  | nil => exact ⟨x, rfl⟩
  | cons j rest ih =>
    obtain ⟨bs, bi⟩ := x
    by_cases h : bs < score j
    · simpa [argmaxLoop, h] using ih (score j, j)
    · simpa [argmaxLoop, h] using ih (bs, bi)

theorem argmaxLoop_mem (score : ℕ → ℚ) (l : List ℕ) (x : ℚ × ℕ) (s : ℚ) (i : ℕ)
    (h : argmaxLoop score l (some x) = some (s, i)) : i ∈ l ∨ i = x.2 := by
  induction l generalizing x with
  | nil =>
    rcases Option.some_inj.mp h with rfl
    exact Or.inr rfl
  | cons j rest ih =>
    obtain ⟨bs, bi⟩ := x
    by_cases hlt : bs < score j
    · rw [argmaxLoop, if_pos hlt] at h
      rcases ih (score j, j) h with hm | hm
      · exact Or.inl (by simp [hm])
      · exact Or.inl (by simp [hm])
    · rw [argmaxLoop, if_neg hlt] at h
      rcases ih (bs, bi) h with hm | hm
      · exact Or.inl (by simp [hm])
      · exact Or.inr hm

theorem argmaxLoop_none_mem (score : ℕ → ℚ) (j : ℕ) (rest : List ℕ) (s : ℚ) (i : ℕ)
    (h : argmaxLoop score (j :: rest) Option.none = some (s, i)) : i ∈ j :: rest := by
  rw [show argmaxLoop score (j :: rest) Option.none
      = argmaxLoop score rest (some (score j, j)) from rfl] at h
  rcases argmaxLoop_mem score rest (score j, j) s i h with hm | hm
  · exact List.mem_cons_of_mem j hm
  · simp [hm]

/-- A running best at least as large as every scanned score survives. -/
theorem argmaxLoop_keep (score : ℕ → ℚ) (l : List ℕ) (bs : ℚ) (bi : ℕ)
    (h : ∀ i ∈ l, score i ≤ bs) :
    argmaxLoop score l (some (bs, bi)) = some (bs, bi) := by
  induction l with
  | nil => rfl
  | cons j rest ih =>
    have hj : ¬ bs < score j := not_lt.mpr (h j (by simp))
    rw [argmaxLoop, if_neg hj]
    exact ih (fun i hi => h i (by simp [hi]))

/-- The loop grows `selected` by exactly `min t remaining.length`. -/
theorem mmrLoop_length (f : DiversityFilter) (sim : ℕ → ℕ → ℚ)
    (cands : List (Movie × ℚ)) (t : ℕ) (selected remaining : List ℕ) :
    (mmrLoop f sim cands t selected remaining).length
      = selected.length + min t remaining.length := by
  induction t generalizing selected remaining with
  | zero => simp [mmrLoop]
  | succ t ih =>
    by_cases hrem : remaining = []
    · simp [mmrLoop, hrem]
    · rw [mmrLoop, if_neg hrem]
      obtain ⟨j, rest, rfl⟩ := List.exists_cons_of_ne_nil hrem
      obtain ⟨⟨s, bi⟩, hy⟩ :=
        argmaxLoop_some (mmrScore f sim cands selected) rest
          (mmrScore f sim cands selected j, j)
      rw [show argmaxLoop (mmrScore f sim cands selected) (j :: rest) Option.none
          = argmaxLoop (mmrScore f sim cands selected) rest
              (mmrScore f sim cands selected j, j) from rfl, hy]
      have hbi : bi ∈ j :: rest :=
        argmaxLoop_none_mem _ j rest s bi
          (by rw [show argmaxLoop (mmrScore f sim cands selected) (j :: rest)
                Option.none = argmaxLoop (mmrScore f sim cands selected) rest
                  (mmrScore f sim cands selected j, j) from rfl, hy])
      rw [ih, List.length_erase_of_mem hbi]
      simp only [List.length_append, List.length_cons, List.length_nil]
      omega

/-- The loop never selects an index twice. -/
theorem mmrLoop_nodup (f : DiversityFilter) (sim : ℕ → ℕ → ℚ)
    (cands : List (Movie × ℚ)) (t : ℕ) (selected remaining : List ℕ)
    (hsel : selected.Nodup) (hrem : remaining.Nodup)
    (hdisj : ∀ i ∈ selected, i ∉ remaining) :
    (mmrLoop f sim cands t selected remaining).Nodup := by
  induction t generalizing selected remaining with
  | zero => simpa [mmrLoop] using hsel
  | succ t ih =>
    by_cases hremnil : remaining = []
    · simpa [mmrLoop, hremnil] using hsel
    · rw [mmrLoop, if_neg hremnil]
      obtain ⟨j, rest, rfl⟩ := List.exists_cons_of_ne_nil hremnil
      obtain ⟨⟨s, bi⟩, hy⟩ :=
        argmaxLoop_some (mmrScore f sim cands selected) rest
          (mmrScore f sim cands selected j, j)
      rw [show argmaxLoop (mmrScore f sim cands selected) (j :: rest) Option.none
          = argmaxLoop (mmrScore f sim cands selected) rest
              (mmrScore f sim cands selected j, j) from rfl, hy]
      have hbi : bi ∈ j :: rest :=
        argmaxLoop_none_mem _ j rest s bi
          (by rw [show argmaxLoop (mmrScore f sim cands selected) (j :: rest)
                Option.none = argmaxLoop (mmrScore f sim cands selected) rest
                  (mmrScore f sim cands selected j, j) from rfl, hy])
      refine ih (selected ++ [bi]) ((j :: rest).erase bi) ?_ (hrem.erase bi) ?_
      · rw [List.nodup_append]
        refine ⟨hsel, List.nodup_singleton bi, ?_⟩
        intro a ha hab
        rcases List.mem_singleton.mp hab with rfl
        exact hdisj a ha hbi
      · intro i hi
        rcases List.mem_append.mp hi with hi | hi
        · exact fun hc => hdisj i hi (List.mem_of_mem_erase hc)
        · rcases List.mem_singleton.mp hi with rfl
          exact hrem.not_mem_erase

theorem drop_one_range (n : ℕ) : (List.range n).drop 1 = List.range' 1 (n - 1) := by
  cases n with
  | zero => rfl
  | succ m => simp [List.range_eq_range', List.range'_succ]

/-- With `λ = 1` the MMR score is the bare relevance. -/
theorem mmrScore_lambda_one (f : DiversityFilter) (sim : ℕ → ℕ → ℚ)
    (cands : List (Movie × ℚ)) (sel : List ℕ) (hl : f.lambda_param = 1) :
    mmrScore f sim cands sel = fun idx => (cands.getD idx default).2 := by
  funext idx
  unfold mmrScore
  rw [hl]
  ring

/-- With `λ = 1` and relevance non-increasing in the index, the loop
marches straight down the prefix: from `selected = [0..j)` and
`remaining = [j..n)` it selects `[0..j + min t (n-j))`. -/
theorem mmrLoop_lambda_one (f : DiversityFilter) (sim : ℕ → ℕ → ℚ)
    (cands : List (Movie × ℚ)) (hl : f.lambda_param = 1)
    (hmono : ∀ i j, i ≤ j → j < cands.length →
      (cands.getD j default).2 ≤ (cands.getD i default).2)
    (t j : ℕ) (hj : j ≤ cands.length) :
    mmrLoop f sim cands t (List.range j) (List.range' j (cands.length - j))
      = List.range (j + min t (cands.length - j)) := by
  induction t generalizing j with
  | zero => simp [mmrLoop]
  | succ t ih =>
    cases hnj : cands.length - j with
    | zero => simp [mmrLoop, hnj, List.range']
    | succ m =>
      rw [List.range'_succ, mmrLoop, if_neg (by simp),
        mmrScore_lambda_one f sim cands _ hl]
      have hkeep : argmaxLoop (fun idx => (cands.getD idx default).2)
          (List.range' (j + 1) m) (some ((cands.getD j default).2, j))
          = some ((cands.getD j default).2, j) := by
        apply argmaxLoop_keep
        intro i hi
        obtain ⟨i', hi', rfl⟩ := List.mem_range'.mp hi
        exact hmono j _ (by omega) (by omega)
      rw [show argmaxLoop (fun idx => (cands.getD idx default).2)
          (j :: List.range' (j + 1) m) Option.none
          = argmaxLoop (fun idx => (cands.getD idx default).2)
              (List.range' (j + 1) m) (some ((cands.getD j default).2, j))
          from rfl, hkeep]
      show mmrLoop f sim cands t (List.range j ++ [j])
          ((j :: List.range' (j + 1) m).erase j) = _
      rw [List.erase_cons_head, ← List.range_succ]
      have hrec := ih (j + 1) (by omega)
      rw [show cands.length - (j + 1) = m from by omega] at hrec
      rw [hrec]
      congr 1
      omega

theorem map_getD_range_eq_take (l : List (Movie × ℚ)) (k : ℕ) (hk : k ≤ l.length) :
    (List.range k).map (fun i => l.getD i default) = l.take k := by
  apply List.ext_getElem
  · simp only [List.length_map, List.length_range, List.length_take]
    omega
  · intro n h1 h2
    simp only [List.getElem_map, List.getElem_range, List.getElem_take]
    exact List.getD_eq_getElem l default
      (by simp only [List.length_map, List.length_range] at h1; omega)

/-! ### Claim theorems about MMR -/

/-- **C5 counterexample.**  At `K = 0` with one candidate, the guard
`len(candidates) <= k` fails, so the loop body runs and unconditionally
selects `candidates[0]`: the output has 1 element, not
`min(K, count) = 0`. -/
theorem C5_counterexample :
    (apply_mmr diversity_filter (fun _ _ => 0) [(wA, 1)] 0).length ≠ min 0 1 := by
  decide

/-- **C5 (amended).**  For every candidate list, similarity and `K ≥ 1`,
MMR never selects the same candidate position twice, its output size is
`min(K, candidate count)`, and when the candidate count is at most `K`
the input is returned unchanged.  (At `K = 0` the size clause fails:
see the counterexample.) -/
theorem C5_mmr_no_duplicates (f : DiversityFilter) (sim : ℕ → ℕ → ℚ)
    (cands : List (Movie × ℚ)) (k : ℕ) (hk : 1 ≤ k) :
    (mmr_selected_indices f sim cands k).Nodup
      ∧ (apply_mmr f sim cands k).length = min k cands.length
      ∧ (cands.length ≤ k → apply_mmr f sim cands k = cands) := by
  refine ⟨?_, ?_, ?_⟩
  · unfold mmr_selected_indices
    apply mmrLoop_nodup
    · exact List.nodup_singleton 0
    · exact List.Nodup.sublist (List.drop_sublist 1 _) (List.nodup_range _)
    · intro i hi
      rcases List.mem_singleton.mp hi with rfl
      rw [drop_one_range]
      intro hc
      obtain ⟨i', -, hj⟩ := List.mem_range'.mp hc
      omega
  · by_cases hle : cands.length ≤ k
    · rw [apply_mmr, if_pos hle]
      omega
    · rw [apply_mmr, if_neg hle, List.length_map]
      unfold mmr_selected_indices
      rw [mmrLoop_length, List.length_drop, List.length_range]
      simp only [List.length_singleton]
      omega
  · intro h
    rw [apply_mmr, if_pos h]

/-- C5's amended statement at two candidates, `K = 1`. -/
theorem C5_mmr_no_duplicates_witness :
    (mmr_selected_indices diversity_filter (fun _ _ => 0) [(wA, 1), (wB, 1)] 1).Nodup
      ∧ (apply_mmr diversity_filter (fun _ _ => 0) [(wA, 1), (wB, 1)] 1).length
          = min 1 2
      ∧ (([(wA, 1), (wB, 1)] : List (Movie × ℚ)).length ≤ 1 →
          apply_mmr diversity_filter (fun _ _ => 0) [(wA, 1), (wB, 1)] 1
            = [(wA, 1), (wB, 1)]) :=
  C5_mmr_no_duplicates diversity_filter (fun _ _ => 0) [(wA, 1), (wB, 1)] 1
    (by omega)

def c6_filter : DiversityFilter := { lambda_param := 1 }

/-- **C6 counterexample.**  At `K = 0` with two candidates and `λ = 1`,
the selection still returns `[candidates[0]]`, not the first
`min(0, 2) = 0` candidates. -/
theorem C6_counterexample :
    apply_mmr c6_filter (fun _ _ => 0) [(wA, 1), (wB, 1)] 0
      ≠ ([(wA, 1), (wB, 1)] : List (Movie × ℚ)).take (min 0 2) := by
  decide

/-- **C6 (amended).**  With `λ = 1`, for every candidate list sorted
non-increasingly by composite score and every `K ≥ 1`, MMR selection
returns exactly the first `min(K, count)` candidates in their given
order, i.e. `take K`.  (At `K = 0` this fails: see the
counterexample.) -/
theorem C6_mmr_lambda_one (f : DiversityFilter) (sim : ℕ → ℕ → ℚ)
    (cands : List (Movie × ℚ)) (k : ℕ) (hl : f.lambda_param = 1) (hk : 1 ≤ k)
    (hsorted : cands.Pairwise
      (fun a b => (b : Movie × ℚ).2 ≤ (a : Movie × ℚ).2)) :
    apply_mmr f sim cands k = cands.take k := by
  by_cases hle : cands.length ≤ k
  · rw [apply_mmr, if_pos hle, List.take_of_length_le hle]
  · have hmono : ∀ i j, i ≤ j → j < cands.length →
        (cands.getD j default).2 ≤ (cands.getD i default).2 := by
      intro i j hij hj
      rcases Nat.eq_or_lt_of_le hij with rfl | hlt
      · exact le_refl _
      · have hi : i < cands.length := lt_trans hlt hj
        rw [List.getD_eq_getElem _ _ hj, List.getD_eq_getElem _ _ hi]
        exact List.pairwise_iff_getElem.mp hsorted i j hi hj hlt
    rw [apply_mmr, if_neg hle]
    unfold mmr_selected_indices
    rw [drop_one_range, show ([0] : List ℕ) = List.range 1 from by decide,
      mmrLoop_lambda_one f sim cands hl hmono (k - 1) 1 (by omega),
      show 1 + min (k - 1) (cands.length - 1) = k from by omega]
    exact map_getD_range_eq_take cands k (by omega)

/-- C6's amended statement at a sorted 3-candidate list, `K = 2`. -/
theorem C6_mmr_lambda_one_witness :
    (c6_filter.lambda_param = 1
        ∧ ([(wA, 3), (wB, 2), (wC, 1)] : List (Movie × ℚ)).Pairwise
            (fun a b => (b : Movie × ℚ).2 ≤ (a : Movie × ℚ).2))
      ∧ apply_mmr c6_filter (fun _ _ => 0) [(wA, 3), (wB, 2), (wC, 1)] 2
          = ([(wA, 3), (wB, 2), (wC, 1)] : List (Movie × ℚ)).take 2 :=
  ⟨⟨rfl, by decide⟩,
    C6_mmr_lambda_one c6_filter (fun _ _ => 0) [(wA, 3), (wB, 2), (wC, 1)] 2
      rfl (by omega) (by decide)⟩

end MovieRec
